import Mathlib

/-!
Verification development for the RaPlaT `r.MaxPower` module
(`src/raster/r.MaxPower/main.c`).

The embedding translates, into Lean:
  * the per-point top-K ranking fold of `main` (lines 809-869),
  * the output-raster / EcN0 stage of `main` (lines 938-964),
  * the persistence engine `fill_database` (lines 260-460) as a trace
    of observable events,
  * the table-creation step `create_table` together with the `cell_num`
    clamping and driver dispatch of `main` (lines 677-684, 971-998).

Power values (C `float` / `double`) are embedded as rationals; raster
null cells are `Option.none`.
-/

namespace RMaxPower

/-- Modelled from the spec: `common.h` (not part of `src/`) defines the
reserved sentinel `DB_MIN_VAL` denoting "no data"; the source comments
(`rx_threshold->answer = "-999"; // Should be equal to DB_MIN_VAL !`)
fix it at -999. -/
def DB_MIN_VAL : ℚ := -999

/-- One slot of the per-point ranked arrays: `arr_power[i][arr_ix]`
paired with `arr_index[i][arr_ix]`. -/
structure Entry where
  power : ℚ
  index : ℕ
deriving DecidableEq, Repr

/-- The bubble loop of `main` (lines 847-860):
`for (i = start; i > 0; i--) { if (arr[i] > arr[i-1]) swap else break }`,
swapping both the power and the index slots. -/
def bubbleFrom : List Entry → ℕ → List Entry
  | l, 0 => l
  | l, i + 1 =>
    let a := l.getD (i + 1) ⟨0, 0⟩
    let b := l.getD i ⟨0, 0⟩
    if a.power > b.power then bubbleFrom ((l.set (i + 1) b).set i a) i
    else l

/-- Folding one reading `v` of source `m` into one point's ranked state
(`main`, lines 828-861).  While fewer than `K` sources have been seen
(`map < cell_num`) the reading is written into slot `m` (`count_mem = map`)
and bubbled; once `K` slots are filled, the reading is dropped when it is
strictly below the last slot, and otherwise overwrites the last slot and
is bubbled from `cell_num - 1`. -/
def ingestOne (K : ℕ) (st : List Entry) (m : ℕ) (v : ℚ) : List Entry :=
  if m < K then bubbleFrom (st ++ [⟨v, m⟩]) m
  else if v < (st.getD (K - 1) ⟨0, 0⟩).power then st
  else bubbleFrom (st.set (K - 1) ⟨v, m⟩) (K - 1)

/-- The map loop of `main` restricted to a single point: fold the readings
of sources `m, m+1, ...` into the state. -/
def rankFoldAux (K : ℕ) : List Entry → ℕ → List ℚ → List Entry
  | st, _, [] => st
  | st, m, v :: vs => rankFoldAux K (ingestOne K st m v) (m + 1) vs

/-- Fold a whole arrival-ordered list of readings for one point, starting
from the empty state (the arrays are written at slot `map` for
`map < cell_num`, so the live prefix grows exactly like this list). -/
def rankFold (K : ℕ) (vs : List ℚ) : List Entry := rankFoldAux K [] 0 vs

/-- Receive power of one source at one point (`main`, lines 820-821):
a null raster cell yields the sentinel, otherwise `Pt[map] - pathloss`. -/
def f_in (Pt : ℚ) : Option ℚ → ℚ
  | none => DB_MIN_VAL
  | some loss => Pt - loss

/-- Ranking fold over raw per-source inputs `(Pt, raster cell)`. -/
def rankFoldR (K : ℕ) (rs : List (ℚ × Option ℚ)) : List Entry :=
  rankFold K (rs.map fun r => f_in r.1 r.2)

/-- Functional description of the bubble loop acting on a sorted prefix:
insert `e` after every element whose power is at least `e.power`. -/
def insTopDesc (e : Entry) : List Entry → List Entry
  | [] => [e]
  | a :: l => if e.power > a.power then e :: a :: l else a :: insTopDesc e l

/-- Sorted by descending power (ties allowed). -/
def sortedDesc (l : List Entry) : Prop :=
  List.Pairwise (fun a b => b.power ≤ a.power) l

instance : DecidablePred sortedDesc := fun l =>
  inferInstanceAs (Decidable (List.Pairwise _ l))

example : rankFold 2 [-80, -60, -95] = [⟨-60, 1⟩, ⟨-80, 0⟩] := by decide

example : rankFold 2 [5, 3, 3] = [⟨5, 0⟩, ⟨3, 2⟩] := by decide

/-! ### List access helpers at an append boundary -/

lemma getD_append_len (q : List Entry) (x : Entry) (r : List Entry) (d : Entry) :
    (q ++ x :: r).getD q.length d = x := by
  induction q with
  | nil => rfl
  | cons a q ih => simpa using ih

lemma getD_append_len_succ (q : List Entry) (x y : Entry) (r : List Entry) (d : Entry) :
    (q ++ x :: y :: r).getD (q.length + 1) d = y := by
  induction q with
  | nil => rfl
  | cons a q ih => simpa using ih

lemma set_append_len (q : List Entry) (x : Entry) (r : List Entry) (y : Entry) :
    (q ++ x :: r).set q.length y = q ++ y :: r := by
  induction q with
  | nil => rfl
  | cons a q ih => simp [ih]

lemma set_append_len_succ (q : List Entry) (x z : Entry) (r : List Entry) (y : Entry) :
    (q ++ x :: z :: r).set (q.length + 1) y = q ++ x :: y :: r := by
  induction q with
  | nil => rfl
  | cons a q ih => simp [ih]

/-! ### Properties of the functional insertion `insTopDesc` -/

lemma insTopDesc_length (e : Entry) (p : List Entry) :
    (insTopDesc e p).length = p.length + 1 := by
  induction p with
  | nil => rfl
  | cons a l ih =>
    by_cases h : e.power > a.power <;> simp [insTopDesc, h, ih]

lemma insTopDesc_countP (f : Entry → Bool) (e : Entry) (p : List Entry) :
    (insTopDesc e p).countP f = p.countP f + if f e then 1 else 0 := by
  induction p with
  | nil => simp [insTopDesc, List.countP_cons]
  | cons a l ih =>
    by_cases h : e.power > a.power
    · simp [insTopDesc, h, List.countP_cons]
    · simp [insTopDesc, h, List.countP_cons, ih]
      omega

lemma mem_insTopDesc {x e : Entry} {p : List Entry} :
    x ∈ insTopDesc e p ↔ x = e ∨ x ∈ p := by
  induction p with
  | nil => simp [insTopDesc]
  | cons a l ih =>
    by_cases h : e.power > a.power
    · simp [insTopDesc, h]
    · simp [insTopDesc, h, ih]
      tauto

lemma insTopDesc_append_last {e a : Entry} (p : List Entry) (h : e.power > a.power) :
    insTopDesc e (p ++ [a]) = insTopDesc e p ++ [a] := by
  induction p with
  | nil => simp [insTopDesc, h]
  | cons b l ih =>
    by_cases hb : e.power > b.power <;> simp [insTopDesc, hb, ih]

lemma insTopDesc_of_all_ge {e : Entry} {p : List Entry}
    (h : ∀ b ∈ p, e.power ≤ b.power) : insTopDesc e p = p ++ [e] := by
  induction p with
  | nil => rfl
  | cons a l ih =>
    have ha : ¬ e.power > a.power := not_lt.mpr (h a (by simp))
    simp only [insTopDesc, if_neg ha]
    rw [ih fun b hb => h b (by simp [hb])]
    simp

lemma insTopDesc_sorted {e : Entry} {p : List Entry} (hp : sortedDesc p) :
    sortedDesc (insTopDesc e p) := by
  induction p with
  | nil => simp [insTopDesc, sortedDesc]
  | cons a l ih =>
    rw [sortedDesc, List.pairwise_cons] at hp
    by_cases h : e.power > a.power
    · rw [insTopDesc, if_pos h]
      refine List.Pairwise.cons ?_ (List.Pairwise.cons hp.1 hp.2)
      intro x hx
      rcases List.mem_cons.mp hx with rfl | hx
      · exact le_of_lt h
      · exact le_trans (hp.1 x hx) (le_of_lt h)
    · rw [insTopDesc, if_neg h]
      refine List.Pairwise.cons ?_ (ih hp.2)
      intro x hx
      rcases mem_insTopDesc.mp hx with rfl | hx
      · exact not_lt.mp h
      · exact hp.1 x hx

/-- The bubble loop on a sorted prefix `p` followed by the freshly written
entry `e` and a tail `s` of entries `e` has already passed over performs
exactly the stable descending insertion of `e` into `p`. -/
lemma bubbleFrom_eq (e : Entry) (p : List Entry) :
    sortedDesc p → ∀ s : List Entry, (∀ x ∈ s, x.power < e.power) →
    bubbleFrom (p ++ e :: s) p.length = insTopDesc e p ++ s := by
  induction p using List.reverseRecOn with
  | nil =>
    intro _ s _
    cases s <;> rfl
  | append_singleton q a ih =>
    intro hp s hs
    have hq : sortedDesc q := by
      rw [sortedDesc, List.pairwise_append] at hp
      exact hp.1
    have hqa : ∀ x ∈ q, a.power ≤ x.power := by
      rw [sortedDesc, List.pairwise_append] at hp
      intro x hx
      exact hp.2.2 x hx a (by simp)
    rw [List.append_assoc, List.singleton_append, List.length_append,
      List.length_singleton]
    rw [bubbleFrom]
    simp only [getD_append_len, getD_append_len_succ]
    by_cases h : e.power > a.power
    · rw [if_pos h, set_append_len_succ, set_append_len]
      rw [ih hq (a :: s) (by
        intro x hx
        rcases List.mem_cons.mp hx with rfl | hx
        · exact h
        · exact hs x hx)]
      rw [insTopDesc_append_last q h]
      simp
    · rw [if_neg h]
      have hall : ∀ b ∈ q ++ [a], e.power ≤ b.power := by
        intro b hb
        rcases List.mem_append.mp hb with hb | hb
        · exact le_trans (not_lt.mp h) (hqa b hb)
        · simp only [List.mem_singleton] at hb
          subst hb
          exact not_lt.mp h
      rw [insTopDesc_of_all_ge hall]
      simp

/-! ### Single-step invariants of the ingest fold -/

lemma ingestOne_sorted_len (K : ℕ) (st : List Entry) (m : ℕ) (v : ℚ)
    (hK : 1 ≤ K) (hs : sortedDesc st) (hlen : st.length = min m K) :
    sortedDesc (ingestOne K st m v) ∧
      (ingestOne K st m v).length = min (m + 1) K := by
  by_cases hm : m < K
  · have hlm : st.length = m := by
      rw [hlen]
      omega
    subst hlm
    rw [ingestOne, if_pos hm, bubbleFrom_eq _ _ hs [] (by simp),
      List.append_nil]
    refine ⟨insTopDesc_sorted hs, ?_⟩
    rw [insTopDesc_length]
    omega
  · have hlK : st.length = K := by
      rw [hlen]
      omega
    have hne : st ≠ [] := by
      intro h
      rw [h] at hlK
      simp at hlK
      omega
    have hsplit : st.dropLast ++ [st.getLast hne] = st :=
      List.dropLast_append_getLast hne
    have hql : st.dropLast.length = K - 1 := by
      have := List.length_dropLast st
      omega
    have hq : sortedDesc st.dropLast := by
      rw [← hsplit, sortedDesc, List.pairwise_append] at hs
      exact hs.1
    rw [ingestOne, if_neg hm]
    by_cases hv : v < (st.getD (K - 1) ⟨0, 0⟩).power
    · rw [if_pos hv]
      refine ⟨hs, ?_⟩
      omega
    · rw [if_neg hv]
      have hset : st.set (K - 1) ⟨v, m⟩ = st.dropLast ++ ⟨v, m⟩ :: [] := by
        conv_lhs => rw [← hsplit]
        rw [← hql]
        exact set_append_len _ _ _ _
      rw [hset, ← hql, bubbleFrom_eq _ _ hq [] (by simp), List.append_nil]
      refine ⟨insTopDesc_sorted hq, ?_⟩
      rw [insTopDesc_length]
      omega

/-- Count of slots holding a power strictly above the sentinel: the
"occupied" part of a point's ranked array. -/
def occ (st : List Entry) : ℕ :=
  st.countP fun e => decide (DB_MIN_VAL < e.power)

lemma occ_insTopDesc (e : Entry) (p : List Entry) :
    occ (insTopDesc e p) =
      occ p + if DB_MIN_VAL < e.power then 1 else 0 := by
  rw [occ, occ, insTopDesc_countP]
  by_cases h : DB_MIN_VAL < e.power <;> simp [h]

lemma occ_append_last (p : List Entry) (a : Entry) :
    occ (p ++ [a]) = occ p + if DB_MIN_VAL < a.power then 1 else 0 := by
  rw [occ, occ, List.countP_append]
  by_cases h : DB_MIN_VAL < a.power <;> simp [List.countP_cons, h]

lemma occ_le_length (p : List Entry) : occ p ≤ p.length :=
  List.countP_le_length _

lemma occ_eq_length (p : List Entry) (h : ∀ e ∈ p, DB_MIN_VAL < e.power) :
    occ p = p.length := by
  rw [occ, List.countP_eq_length.mpr]
  intro e he
  simpa using h e he

lemma ingestOne_occ (K : ℕ) (st : List Entry) (m : ℕ) (v : ℚ) (n₀ : ℕ)
    (hK : 1 ≤ K) (hs : sortedDesc st) (hlen : st.length = min m K)
    (hge : ∀ e ∈ st, DB_MIN_VAL ≤ e.power) (hv2 : DB_MIN_VAL ≤ v)
    (hocc : occ st = min K n₀) :
    occ (ingestOne K st m v) =
        min K (n₀ + (if DB_MIN_VAL < v then 1 else 0)) ∧
      ∀ e ∈ ingestOne K st m v, DB_MIN_VAL ≤ e.power := by
  have hocc_le : occ st ≤ st.length := occ_le_length st
  by_cases hm : m < K
  · have hlm : st.length = m := by
      rw [hlen]
      omega
    subst hlm
    rw [ingestOne, if_pos hm, bubbleFrom_eq _ _ hs [] (by simp),
      List.append_nil]
    refine ⟨?_, ?_⟩
    · rw [occ_insTopDesc]
      by_cases hlt : DB_MIN_VAL < v
      · simp only [if_pos hlt]
        omega
      · simp only [if_neg hlt]
        omega
    · intro e he
      rcases mem_insTopDesc.mp he with rfl | he
      · exact hv2
      · exact hge e he
  · have hlK : st.length = K := by
      rw [hlen]
      omega
    have hne : st ≠ [] := by
      intro h
      rw [h] at hlK
      simp at hlK
      omega
    have hsplit : st.dropLast ++ [st.getLast hne] = st :=
      List.dropLast_append_getLast hne
    have hql : st.dropLast.length = K - 1 := by
      have := List.length_dropLast st
      omega
    have hgd : st.getD (K - 1) ⟨0, 0⟩ = st.getLast hne := by
      conv_lhs => rw [← hsplit]
      rw [← hql]
      exact getD_append_len _ _ _ _
    have hq : sortedDesc st.dropLast := by
      rw [← hsplit, sortedDesc, List.pairwise_append] at hs
      exact hs.1
    have hqa : ∀ x ∈ st.dropLast, (st.getLast hne).power ≤ x.power := by
      rw [← hsplit, sortedDesc, List.pairwise_append] at hs
      intro x hx
      exact hs.2.2 x hx _ (by simp)
    have hall_ge_last : ∀ e ∈ st, (st.getLast hne).power ≤ e.power := by
      intro e he
      rw [← hsplit] at he
      rcases List.mem_append.mp he with h | h
      · exact hqa e h
      · simp only [List.mem_singleton] at h
        subst h
        exact le_refl _
    have ha_ge : DB_MIN_VAL ≤ (st.getLast hne).power :=
      hge _ (List.getLast_mem hne)
    have hocc_split :
        occ st = occ st.dropLast +
          (if DB_MIN_VAL < (st.getLast hne).power then 1 else 0) := by
      conv_lhs => rw [← hsplit]
      exact occ_append_last _ _
    have hdrop_le : occ st.dropLast ≤ K - 1 := by
      have := occ_le_length st.dropLast
      omega
    rw [ingestOne, if_neg hm]
    by_cases hv : v < (st.getD (K - 1) ⟨0, 0⟩).power
    · rw [if_pos hv]
      refine ⟨?_, hge⟩
      by_cases hlt : DB_MIN_VAL < v
      · have hfull : occ st = K := by
          apply occ_eq_length st ?_ |>.trans hlK
          intro e he
          calc DB_MIN_VAL < v := hlt
            _ < (st.getD (K - 1) ⟨0, 0⟩).power := hv
            _ ≤ e.power := by
                rw [hgd]
                exact hall_ge_last e he
        rw [if_pos hlt]
        omega
      · rw [if_neg hlt]
        simpa using hocc
    · rw [if_neg hv]
      have hlast_le : (st.getLast hne).power ≤ v := by
        rw [← hgd]
        exact not_lt.mp hv
      have hset : st.set (K - 1) ⟨v, m⟩ = st.dropLast ++ ⟨v, m⟩ :: [] := by
        conv_lhs => rw [← hsplit]
        rw [← hql]
        exact set_append_len _ _ _ _
      rw [hset, ← hql, bubbleFrom_eq _ _ hq [] (by simp), List.append_nil]
      refine ⟨?_, ?_⟩
      · rw [occ_insTopDesc]
        by_cases hlt : DB_MIN_VAL < v
        · rw [if_pos hlt]
          by_cases hlast : DB_MIN_VAL < (st.getLast hne).power
          · have hfull : occ st = K := by
              apply occ_eq_length st ?_ |>.trans hlK
              intro e he
              exact lt_of_lt_of_le hlast (hall_ge_last e he)
            rw [hocc_split, if_pos hlast] at hfull hocc
            omega
          · rw [hocc_split, if_neg hlast] at hocc
            omega
        · rw [if_neg hlt]
          have hlast_eq : ¬ DB_MIN_VAL < (st.getLast hne).power := by
            intro h
            exact hlt (lt_of_lt_of_le h hlast_le)
          rw [hocc_split, if_neg hlast_eq] at hocc
          omega
      · intro e he
        rcases mem_insTopDesc.mp he with rfl | he
        · exact hv2
        · exact hge e (List.mem_of_mem_dropLast he)

/-! ### Fold-level invariants -/

lemma rankFoldAux_inv (K : ℕ) (hK : 1 ≤ K) :
    ∀ (vs : List ℚ) (st : List Entry) (m : ℕ),
      sortedDesc st → st.length = min m K →
      sortedDesc (rankFoldAux K st m vs) ∧
        (rankFoldAux K st m vs).length = min (m + vs.length) K := by
  intro vs
  induction vs with
  | nil =>
    intro st m hs hlen
    exact ⟨hs, by simpa using hlen⟩
  | cons v vs ih =>
    intro st m hs hlen
    rw [rankFoldAux]
    obtain ⟨h1, h2⟩ := ingestOne_sorted_len K st m v hK hs hlen
    obtain ⟨h3, h4⟩ := ih (ingestOne K st m v) (m + 1) h1 h2
    refine ⟨h3, ?_⟩
    rw [h4]
    congr 1
    simp
    omega

/-- Count of non-sentinel (non-null) readings of an input list. -/
def nsCount (rs : List (ℚ × Option ℚ)) : ℕ :=
  rs.countP fun r => r.2.isSome

/-- A source input whose usable reading, when present, lies strictly
above the sentinel floor. -/
def goodR (r : ℚ × Option ℚ) : Prop :=
  ∀ l, r.2 = some l → DB_MIN_VAL < r.1 - l

lemma rankFoldAux_occ (K : ℕ) (hK : 1 ≤ K) :
    ∀ (rs : List (ℚ × Option ℚ)) (st : List Entry) (m n₀ : ℕ),
      sortedDesc st → st.length = min m K →
      (∀ e ∈ st, DB_MIN_VAL ≤ e.power) → occ st = min K n₀ →
      (∀ r ∈ rs, goodR r) →
      occ (rankFoldAux K st m (rs.map fun r => f_in r.1 r.2)) =
        min K (n₀ + nsCount rs) := by
  intro rs
  induction rs with
  | nil =>
    intro st m n₀ _ _ _ hocc _
    simpa [nsCount, rankFoldAux] using hocc
  | cons r rs ih =>
    intro st m n₀ hs hlen hge hocc hgood
    simp only [List.map_cons, rankFoldAux]
    have hr : goodR r := hgood r (by simp)
    have hv2 : DB_MIN_VAL ≤ f_in r.1 r.2 := by
      rcases r with ⟨Pt, c⟩
      cases c with
      | none => simp [f_in]
      | some l => exact le_of_lt (hr l rfl)
    have hδ : (if DB_MIN_VAL < f_in r.1 r.2 then 1 else 0) =
        (if r.2.isSome then 1 else 0) := by
      rcases r with ⟨Pt, c⟩
      cases c with
      | none => simp [f_in]
      | some l =>
        have := hr l rfl
        simp [f_in, this]
    obtain ⟨ho, hg⟩ :=
      ingestOne_occ K st m (f_in r.1 r.2) n₀ hK hs hlen hge hv2 hocc
    rw [hδ] at ho
    obtain ⟨hsorted, hlen2⟩ :=
      ingestOne_sorted_len K st m (f_in r.1 r.2) hK hs hlen
    rw [ih (ingestOne K st m (f_in r.1 r.2)) (m + 1)
      (n₀ + (if r.2.isSome then 1 else 0)) hsorted hlen2 hg ho
      (fun x hx => hgood x (List.mem_cons_of_mem _ hx))]
    have hns : nsCount (r :: rs) =
        nsCount rs + (if r.2.isSome then 1 else 0) :=
      List.countP_cons _ _ _
    rw [hns]
    congr 1
    omega

/-! ### Claims about the ranking fold -/

/-- C7: for every number of sources folded in so far (every reading
prefix is itself a `rankFold` run), the point's ranked array is sorted in
descending order and gap-free: its live slots form a contiguous prefix of
length `min (#readings) K`. -/
theorem c7_ranked_sorted_after_each_step (K : ℕ) (hK : 1 ≤ K)
    (vs : List ℚ) :
    sortedDesc (rankFold K vs) ∧ (rankFold K vs).length = min vs.length K := by
  obtain ⟨h1, h2⟩ :=
    rankFoldAux_inv K hK vs [] 0 (by simp [sortedDesc]) (by simp)
  exact ⟨h1, by simpa using h2⟩

/-- Witness for `c7_ranked_sorted_after_each_step` at `K = 2`,
readings `[1, 5, 3]`. -/
theorem c7_ranked_sorted_after_each_step_witness :
    sortedDesc (rankFold 2 [1, 5, 3]) ∧
      (rankFold 2 [1, 5, 3]).length = min 3 2 := by
  have h := c7_ranked_sorted_after_each_step 2 (by norm_num) [1, 5, 3]
  simpa using h

/-- C1 counterexample: with a full top-2 array `[(5, src 0), (3, src 1)]`,
an incoming reading equal to the current minimum (value 3, from source 2)
is NOT discarded: `main.c` line 836 skips only on a strictly-less
comparison, so the equal reading overwrites the minimum slot, replacing
its source index (1 becomes 2).  The claim said an incoming value not
strictly greater than the minimum is discarded and an equal value never
displaces an existing entry. -/
theorem c1_counterexample :
    ingestOne 2 [⟨5, 0⟩, ⟨3, 1⟩] 2 3 = [⟨5, 0⟩, ⟨3, 2⟩] ∧
      ingestOne 2 [⟨5, 0⟩, ⟨3, 1⟩] 2 3 ≠ [⟨5, 0⟩, ⟨3, 1⟩] := by decide

/-- C1 (amended): once `K` entries are present, an incoming reading is
discarded exactly when it is strictly less than the current minimum (the
last slot); when it is greater than or equal to the minimum — equality
included — it overwrites exactly the former minimum slot and is bubbled
upward while it strictly exceeds its predecessor (the stable descending
insertion into the first `K - 1` slots), leaving the array sorted
descending with `K` entries. -/
theorem c1_full_insert_amended (K : ℕ) (st : List Entry) (m : ℕ) (v : ℚ)
    (hK : 1 ≤ K) (hs : sortedDesc st) (hlen : st.length = K) (hm : K ≤ m) :
    (v < (st.getD (K - 1) ⟨0, 0⟩).power → ingestOne K st m v = st) ∧
    ((st.getD (K - 1) ⟨0, 0⟩).power ≤ v →
      ingestOne K st m v = insTopDesc ⟨v, m⟩ st.dropLast ∧
        sortedDesc (ingestOne K st m v) ∧
        (ingestOne K st m v).length = K) := by
  have hmK : ¬ m < K := not_lt.mpr hm
  have hne : st ≠ [] := by
    intro h
    rw [h] at hlen
    simp at hlen
    omega
  have hsplit : st.dropLast ++ [st.getLast hne] = st :=
    List.dropLast_append_getLast hne
  have hql : st.dropLast.length = K - 1 := by
    have := List.length_dropLast st
    omega
  have hq : sortedDesc st.dropLast := by
    rw [← hsplit, sortedDesc, List.pairwise_append] at hs
    exact hs.1
  constructor
  · intro hv
    rw [ingestOne, if_neg hmK, if_pos hv]
  · intro hv
    have hres : ingestOne K st m v = insTopDesc ⟨v, m⟩ st.dropLast := by
      rw [ingestOne, if_neg hmK, if_neg (not_lt.mpr hv)]
      have hset : st.set (K - 1) ⟨v, m⟩ = st.dropLast ++ ⟨v, m⟩ :: [] := by
        conv_lhs => rw [← hsplit]
        rw [← hql]
        exact set_append_len _ _ _ _
      rw [hset, ← hql, bubbleFrom_eq _ _ hq [] (by simp), List.append_nil]
    refine ⟨hres, ?_, ?_⟩
    · rw [hres]
      exact insTopDesc_sorted hq
    · rw [hres, insTopDesc_length]
      omega

/-- Witness for `c1_full_insert_amended`: both branches at `K = 2`,
full state `[(5, 0), (3, 1)]`, incoming source 2 with value 2
(discarded) and value 7 (inserted at the top). -/
theorem c1_full_insert_amended_witness :
    ingestOne 2 [⟨5, 0⟩, ⟨3, 1⟩] 2 2 = [⟨5, 0⟩, ⟨3, 1⟩] ∧
      ingestOne 2 [⟨5, 0⟩, ⟨3, 1⟩] 2 7 = insTopDesc ⟨7, 2⟩ [⟨5, 0⟩] := by
  constructor
  · exact (c1_full_insert_amended 2 [⟨5, 0⟩, ⟨3, 1⟩] 2 2 (by norm_num)
      (by decide) (by decide) (by norm_num)).1 (by decide)
  · exact ((c1_full_insert_amended 2 [⟨5, 0⟩, ⟨3, 1⟩] 2 7 (by norm_num)
      (by decide) (by decide) (by norm_num)).2 (by decide)).1

/-- C2 counterexample: with `K = 2`, a usable first reading (power 5)
followed by a no-data reading, the sentinel reading is still placed into
the ranked array (slot 1, source index 1) although it is not the point's
very first reading: `main.c` line 830 writes every reading, sentinel or
not, into slot `map` while `map < cell_num`. -/
theorem c2_counterexample :
    rankFoldR 2 [(5, some 0), (0, none)] = [⟨5, 0⟩, ⟨DB_MIN_VAL, 1⟩] ∧
      (⟨DB_MIN_VAL, 1⟩ : Entry) ∈ rankFoldR 2 [(5, some 0), (0, none)] := by
  have hmap : rankFoldR 2 [(5, some 0), (0, none)] =
      rankFold 2 [5, DB_MIN_VAL] := by
    rw [rankFoldR]
    norm_num [f_in]
  refine ⟨?_, ?_⟩ <;> rw [hmap] <;> decide

/-- C2 (amended): sentinel readings are written into the ranked array
whenever fewer than `K` readings have arrived (not only as the very first
reading), and once full a sentinel can still overwrite a sentinel-valued
minimum slot; nevertheless, provided every usable (non-null) reading lies
strictly above the sentinel floor, after all sources are folded in the
number of occupied slots — slots holding a power above the sentinel —
equals `min K (number of non-sentinel readings seen)`, for every arrival
order. -/
theorem c2_occupied_len_amended (K : ℕ) (hK : 1 ≤ K)
    (rs : List (ℚ × Option ℚ)) (hgood : ∀ r ∈ rs, goodR r) :
    occ (rankFoldR K rs) = min K (nsCount rs) := by
  have h := rankFoldAux_occ K hK rs [] 0 0 (by simp [sortedDesc]) (by simp)
    (by simp) (by simp [occ]) hgood
  simpa [rankFoldR, rankFold] using h

/-- Witness for `c2_occupied_len_amended` at `K = 2` with two usable
readings and one no-data reading. -/
theorem c2_occupied_len_amended_witness :
    occ (rankFoldR 2 [(5, some 0), (0, none), (7, some 1)]) = min 2 2 := by
  have h := c2_occupied_len_amended 2 (by norm_num)
    [(5, some 0), (0, none), (7, some 1)] ?_
  · have hns : nsCount [((5:ℚ), some (0:ℚ)), (0, none), (7, some 1)] = 2 := rfl
    rw [hns] at h
    exact h
  · intro r hr l hl
    rcases List.mem_cons.mp hr with rfl | hr2
    · change some (0:ℚ) = some l at hl
      injection hl with h0
      subst h0
      norm_num [DB_MIN_VAL]
    rcases List.mem_cons.mp hr2 with rfl | hr3
    · change (none : Option ℚ) = some l at hl
      cases hl
    rcases List.mem_cons.mp hr3 with rfl | hr4
    · change some (1:ℚ) = some l at hl
      injection hl with h1
      subst h1
      norm_num [DB_MIN_VAL]
    · cases hr4

/-! ### Output-raster stage (`main`, lines 893-964) -/

/-- The C cast `(CELL) f` of a `float` value: truncation toward zero. -/
def cCast (q : ℚ) : ℤ := if 0 ≤ q then ⌊q⌋ else ⌈q⌉

/-- The `generate=` selector (lines 900-934): the four basic contents plus
the LTE family (whose per-point value `PdBm2LteThroughput` computes). -/
inductive GenMode where
  | rssMax
  | coverage
  | rssSum
  | rssMaxIx
  | lte
deriving DecidableEq, Repr

/-- One cell of the output raster (`main`, lines 938-957): pick the
selected grid (cast through `(CELL)`, lines 948-949), null it when at or
below the sentinel (line 951), null it when the strongest signal is at or
below the receive threshold (line 954), else recode to 1.0 in coverage
mode (line 955). -/
def rasterCell (mode : GenMode) (best sumdB : ℚ) (bestIx : ℤ)
    (lteVal thresh : ℚ) : Option ℚ :=
  let f0 : ℚ :=
    match mode with
    | .rssMax => (cCast best : ℚ)
    | .coverage => (cCast best : ℚ)
    | .rssSum => (cCast sumdB : ℚ)
    | .rssMaxIx => (bestIx : ℚ)
    | .lte => (cCast lteVal : ℚ)
  let v1 : Option ℚ := if f0 ≤ DB_MIN_VAL then none else some f0
  if best ≤ thresh then none
  else if mode = .coverage then some 1 else v1

/-- Per-point inputs of the output loop: strongest power `arr_power[0]`,
finalized aggregate `arr_sumpower` (dB), best-server index `arr_index[0]`
and the LTE adapter value for this point. -/
abbrev OutPt := ℚ × ℚ × ℤ × ℚ

/-- The output loop (lines 938-964): one raster cell per point, and the
quality array `arr_EcNo[ix] = arr_power[0][ix] - arr_sumpower[ix]`
(line 945), computed for every point whatever the selected mode. -/
def mainOutputs (mode : GenMode) (thresh : ℚ) (pts : List OutPt) :
    List (Option ℚ) × List ℚ :=
  (pts.map fun q => rasterCell mode q.1 q.2.1 q.2.2.1 q.2.2.2 thresh,
   pts.map fun q => q.1 - q.2.1)

/-! ### Persistence engine `fill_database` (lines 260-460) -/

/-- The single-quote character of the C format strings. -/
def sq : String := String.mk [Char.ofNat 39]

/-- The `%.2f` formatting of C `printf` (two decimals). -/
def fmt2f (q : ℚ) : String :=
  let n : ℤ := round (q * 100)
  let sgn := if n < 0 then "-" else ""
  let a := n.natAbs
  sgn ++ toString (a / 100) ++ "." ++
    (if a % 100 < 10 then "0" else "") ++ toString (a % 100)

/-- Finalized data of one grid point as `fill_database` reads it: the `K`
ranked slots `(cell_name[ix2], antenna_id[ix2], arr_power[i], model_name[ix2])`
and `arr_EcNo`. -/
structure PointRec where
  cells : List (String × ℤ × ℚ × String)
  ecno : ℚ
deriving DecidableEq

/-- `arr_power[0][arr_ix]`: the strongest (rank-1) power of a point. -/
def bestPower (p : PointRec) : ℚ :=
  match p.cells with
  | [] => 0
  | c :: _ => c.2.2.1

/-- The per-slot fragment `,\x27%s\x27,%d,%.2f,\x27%s\x27` (line 379). -/
def cellField (c : String × ℤ × ℚ × String) : String :=
  "," ++ sq ++ c.1 ++ sq ++ "," ++ toString c.2.1 ++ "," ++
    fmt2f c.2.2.1 ++ "," ++ sq ++ c.2.2.2 ++ sq

/-- The `%d,%d,%d` head (line 373) plus the ranked-slot fragments. -/
def lineBody (x y res : ℤ) (cells : List (String × ℤ × ℚ × String)) : String :=
  toString x ++ "," ++ toString y ++ "," ++ toString res ++
    String.join (cells.map cellField)

/-- One full record: body plus the trailing `,%.2f` EcN0 field (line 383). -/
def lineOf (x y res : ℤ) (p : PointRec) : String :=
  lineBody x y res p.cells ++ ("," ++ fmt2f p.ecno)

/-- Observable events of the persistence engine. -/
inductive Ev where
  | beginTx
  | commitTx
  | exec (n : ℕ) (sql : String)
  | bulkLoad (sql : String)
  | mkTemp
  | writeLine (s : String)
  | createTable (ncols : ℕ)
  | dropTable
  | fatal (msg : String)
deriving DecidableEq, Repr

/-- `INSERT INTO <tbl> VALUES (` (lines 364-366). -/
def insHead (tbl : String) : String := "INSERT INTO " ++ tbl ++ " VALUES ("

/-- The column loop of `fill_database` (lines 349-403) for one raster row:
`x` advances by `res` per column, `cnt`/`sql` are `SQLrowcnt` and the SQL
string under construction.  Null points (`arr_power[0] == DB_MIN_VAL`,
line 356, `SKIPNULL = 1`) are dropped; the flush check (lines 394-401)
runs after every column and fires on a full packet or at the last column. -/
def scanCols (csv2db : Bool) (packet : ℕ) (tbl : String) (y res : ℤ) :
    ℤ → ℕ → String → List PointRec → List Ev
  | _, _, _, [] => []
  | x, cnt, sql, p :: rest =>
    if bestPower p ≠ DB_MIN_VAL then
      let vals := lineOf x y res p
      if csv2db then
        Ev.writeLine vals :: scanCols csv2db packet tbl y res (x + res) cnt sql rest
      else
        let cnt1 := cnt + 1
        let sql1 := (if cnt = 0 then insHead tbl else sql ++ " ,(") ++ vals ++ ")"
        if cnt1 = packet ∨ rest = [] then
          Ev.exec cnt1 sql1 :: scanCols csv2db packet tbl y res (x + res) 0 "" rest
        else scanCols csv2db packet tbl y res (x + res) cnt1 sql1 rest
    else
      if ¬csv2db ∧ 0 < cnt ∧ (cnt = packet ∨ rest = []) then
        Ev.exec cnt sql :: scanCols csv2db packet tbl y res (x + res) 0 "" rest
      else scanCols csv2db packet tbl y res (x + res) cnt sql rest

/-- The row loop (lines 343-404): `y` decreases by `res` per raster row and
`SQLrowcnt` restarts at 0 for every row (line 348). -/
def scanRows (csv2db : Bool) (packet : ℕ) (tbl : String) (xS res : ℤ) :
    ℤ → List (List PointRec) → List Ev
  | _, [] => []
  | y, r :: rest =>
    scanCols csv2db packet tbl y res xS 0 "" r ++
      scanRows csv2db packet tbl xS res (y - res) rest

/-- The `mkstemp` template of the staging file (line 271). -/
def csvTmpName : String := "/tmp/fileXXXXXX"

/-- `LOAD DATA LOCAL INFILE ...` (lines 428-432). -/
def mysqlLoadSql (tbl : String) : String :=
  "LOAD DATA LOCAL INFILE " ++ sq ++ csvTmpName ++ sq ++ " INTO TABLE " ++
    tbl ++ " FIELDS TERMINATED BY " ++ sq ++ "," ++ sq ++
    " ENCLOSED BY \"" ++ sq ++ "\""

/-- `COPY ... FROM ...` (lines 438-442). -/
def pgCopySql (tbl : String) : String :=
  "COPY " ++ tbl ++ " FROM " ++ sq ++ csvTmpName ++ sq ++
    " CSV QUOTE " ++ sq ++ sq ++ sq ++ sq

/-- The fatal message of line 444. -/
def unsupportedMsg (drv : String) : String :=
  "dbperf=99 not supported for the database driver " ++ sq ++ drv ++ sq

/-- The persistence engine (lines 260-460) as an event trace.  `dbf` and
`sqlite` force `db_perf = 1` (line 283); the `csv` driver writes the
records straight to the output file (existence-checked, lines 329-337);
`0 ≤ db_perf < 99` runs the transactional insert path (lines 291-295,
308-315, 406-413); otherwise the staging file is written and then bulk-
loaded for `mysql`/`pg`, any other driver hitting the fatal of line 444
only after the scan. -/
def fill_database (drv : String) (dbPerf : ℤ) (ovr outFileExists : Bool)
    (xS yS res : ℤ) (tbl : String) (rows : List (List PointRec)) : List Ev :=
  let dbp := if drv = "dbf" ∨ drv = "sqlite" then 1 else dbPerf
  if drv = "csv" then
    if outFileExists ∧ ¬ovr then [Ev.fatal "Output csv file already exists"]
    else scanRows true 1 tbl xS res yS rows
  else if 0 ≤ dbp ∧ dbp < 99 then
    Ev.beginTx :: (scanRows false dbp.toNat tbl xS res yS rows ++ [Ev.commitTx])
  else
    Ev.mkTemp :: (scanRows true 1 tbl xS res yS rows ++
      (if drv = "mysql" then [Ev.bulkLoad (mysqlLoadSql tbl)]
       else if drv = "pg" then [Ev.bulkLoad (pgCopySql tbl)]
       else [Ev.fatal (unsupportedMsg drv)]))

/-- `create_table` (lines 135-255): an existing table aborts without
overwrite permission and is dropped with it; for the `pg` driver with
overwrite permission an unconditional `DROP TABLE IF EXISTS` statement is
issued besides (the workaround of lines 168-196, both drops modelled as
`dropTable`); the created schema has `4 * cell_num + 4` columns
(line 144). -/
def create_table (drv : String) (tableExists ovr : Bool) (cellNum : ℕ)
    (tbl : String) : List Ev :=
  if tableExists ∧ ¬ovr then [Ev.fatal ("Table " ++ tbl ++ " already exists")]
  else
    (if tableExists ∧ ovr then [Ev.dropTable] else []) ++
      (if drv = "pg" ∧ ovr then [Ev.dropTable] else []) ++
      [Ev.createTable (4 * cellNum + 4)]

def hasFatal (tr : List Ev) : Bool :=
  tr.any fun e =>
    match e with
    | .fatal _ => true
    | _ => false

/-- The persistence part of `main` (lines 677-684 and 969-998): clamp
`cell_num` to the number of sources (line 678), create the table for real
database drivers (aborting on its fatal), then run `fill_database`; the
`csv` driver skips table creation, the `none` driver persists nothing
(and reduces `cell_num` to 1 for the raster only). -/
def mainPersist (drv : String) (dbPerf : ℤ) (K M : ℕ)
    (tableExists ovr outFileExists : Bool) (xS yS res : ℤ) (tbl : String)
    (rows : List (List PointRec)) : List Ev :=
  let cellNum := if M < K then M else K
  if drv ≠ "none" ∧ drv ≠ "csv" then
    let ct := create_table drv tableExists ovr cellNum tbl
    if hasFatal ct then ct
    else ct ++ fill_database drv dbPerf ovr outFileExists xS yS res tbl rows
  else if drv = "csv" then
    fill_database drv dbPerf ovr outFileExists xS yS res tbl rows
  else []

/-- The record lines written to the staging file or the csv output file. -/
def writtenLines (tr : List Ev) : List String :=
  tr.filterMap fun e =>
    match e with
    | .writeLine s => some s
    | _ => none

/-- The row counts of the executed INSERT statements. -/
def execSizes (tr : List Ev) : List ℕ :=
  tr.filterMap fun e =>
    match e with
    | .exec n _ => some n
    | _ => none

/-- No staging file, no bulk load, no fatal error. -/
def benign (e : Ev) : Bool :=
  match e with
  | .mkTemp => false
  | .bulkLoad _ => false
  | .fatal _ => false
  | _ => true

/-! ### Characterizations of the scan loop -/

/-- Eligible (non-null) points of one raster row. -/
def countElig (pts : List PointRec) : ℕ :=
  pts.countP fun p => decide (bestPower p ≠ DB_MIN_VAL)

/-- Row counts of the INSERT statements the column loop issues for one
raster row, starting from `cnt` buffered rows: the flush logic of
lines 348, 362-369 and 394-401 stripped of the SQL text. -/
def stmtSizesAux (N : ℕ) : ℕ → List PointRec → List ℕ
  | _, [] => []
  | cnt, p :: rest =>
    if bestPower p ≠ DB_MIN_VAL then
      if cnt + 1 = N ∨ rest = [] then (cnt + 1) :: stmtSizesAux N 0 rest
      else stmtSizesAux N (cnt + 1) rest
    else
      if 0 < cnt ∧ (cnt = N ∨ rest = []) then cnt :: stmtSizesAux N 0 rest
      else stmtSizesAux N cnt rest

lemma execSizes_scanCols (N : ℕ) (tbl : String) (y res : ℤ) :
    ∀ (pts : List PointRec) (x : ℤ) (cnt : ℕ) (sql : String),
      execSizes (scanCols false N tbl y res x cnt sql pts) =
        stmtSizesAux N cnt pts := by
  intro pts
  induction pts with
  | nil =>
    intro x cnt sql
    rfl
  | cons p rest ih =>
    intro x cnt sql
    rw [scanCols, stmtSizesAux]
    by_cases hp : bestPower p ≠ DB_MIN_VAL
    · rw [if_pos hp, if_pos hp]
      simp only [Bool.false_eq_true, if_false]
      by_cases hffl : cnt + 1 = N ∨ rest = []
      · rw [if_pos hffl, if_pos hffl]
        rw [execSizes, List.filterMap_cons]
        simp only []
        rw [← execSizes, ih]
      · rw [if_neg hffl, if_neg hffl, ih]
    · rw [if_neg hp, if_neg hp]
      by_cases hffl : ¬false = true ∧ 0 < cnt ∧ (cnt = N ∨ rest = [])
      · rw [if_pos hffl, if_pos ⟨hffl.2.1, hffl.2.2⟩]
        rw [execSizes, List.filterMap_cons]
        simp only []
        rw [← execSizes, ih]
      · have hffl2 : ¬ (0 < cnt ∧ (cnt = N ∨ rest = [])) := by
          intro h
          exact hffl ⟨by simp, h⟩
        rw [if_neg hffl, if_neg hffl2, ih]

lemma execSizes_scanRows (N : ℕ) (tbl : String) (xS res : ℤ) :
    ∀ (rows : List (List PointRec)) (y : ℤ),
      execSizes (scanRows false N tbl xS res y rows) =
        (rows.map fun r => stmtSizesAux N 0 r).flatten := by
  intro rows
  induction rows with
  | nil =>
    intro y
    rfl
  | cons r rest ih =>
    intro y
    rw [scanRows, execSizes, List.filterMap_append]
    rw [← execSizes, ← execSizes, execSizes_scanCols, ih]
    simp

lemma stmtSizesAux_pos (N : ℕ) :
    ∀ (pts : List PointRec) (cnt : ℕ), ∀ k ∈ stmtSizesAux N cnt pts, 0 < k := by
  intro pts
  induction pts with
  | nil =>
    intro cnt k hk
    simp [stmtSizesAux] at hk
  | cons p rest ih =>
    intro cnt k hk
    rw [stmtSizesAux] at hk
    split_ifs at hk with h1 h2 h3
    · rcases List.mem_cons.mp hk with rfl | hk2
      · omega
      · exact ih 0 k hk2
    · exact ih (cnt + 1) k hk
    · rcases List.mem_cons.mp hk with rfl | hk2
      · omega
      · exact ih 0 k hk2
    · exact ih cnt k hk

lemma div_one_of (N x : ℕ) (h1 : N ≤ x) (h2 : x < 2 * N) : x / N = 1 := by
  have h0 : 0 < N := by omega
  have h3 := Nat.add_div_right (x - N) h0
  rw [Nat.sub_add_cancel h1] at h3
  rw [h3, Nat.div_eq_of_lt (by omega)]

lemma stmtSizesAux_sum_len (N : ℕ) (hN : 1 ≤ N) :
    ∀ (pts : List PointRec) (cnt : ℕ), cnt < N → (pts = [] → cnt = 0) →
      (stmtSizesAux N cnt pts).sum = cnt + countElig pts ∧
        (stmtSizesAux N cnt pts).length = (cnt + countElig pts + N - 1) / N := by
  intro pts
  induction pts with
  | nil =>
    intro cnt _ h0
    rw [h0 rfl]
    refine ⟨rfl, ?_⟩
    rw [show countElig [] = 0 from rfl,
      Nat.div_eq_of_lt (by omega : 0 + 0 + N - 1 < N)]
    rfl
  | cons p rest ih =>
    intro cnt hcnt h0
    have hce : countElig (p :: rest) =
        countElig rest + (if bestPower p ≠ DB_MIN_VAL then 1 else 0) := by
      rw [countElig, List.countP_cons, ← countElig]
      by_cases hp : bestPower p ≠ DB_MIN_VAL <;> simp [hp]
    rw [stmtSizesAux]
    by_cases hp : bestPower p ≠ DB_MIN_VAL
    · rw [if_pos hp]
      rw [hce, if_pos hp]
      by_cases hffl : cnt + 1 = N ∨ rest = []
      · rw [if_pos hffl]
        by_cases hrest : rest = []
        · subst hrest
          rw [show countElig ([] : List PointRec) = 0 from rfl,
            show stmtSizesAux N 0 [] = [] from rfl]
          refine ⟨by simp, ?_⟩
          rw [show cnt + (0 + 1) + N - 1 = cnt + N from by omega,
            div_one_of N (cnt + N) (by omega) (by omega)]
          rfl
        · have hN1 : cnt + 1 = N := by tauto
          obtain ⟨hsum, hlen⟩ := ih 0 (by omega) (fun h => absurd h hrest)
          constructor
          · rw [List.sum_cons, hsum]
            omega
          · rw [List.length_cons, hlen]
            rw [show cnt + (countElig rest + 1) + N - 1 =
              0 + countElig rest + N - 1 + N from by omega,
              Nat.add_div_right _ (by omega)]
      · rw [if_neg hffl]
        push_neg at hffl
        obtain ⟨hsum, hlen⟩ := ih (cnt + 1) (by omega) (fun h => absurd h hffl.2)
        constructor
        · rw [hsum]
          omega
        · rw [hlen]
          congr 1
          omega
    · rw [if_neg hp]
      rw [hce, if_neg hp]
      by_cases hffl : 0 < cnt ∧ (cnt = N ∨ rest = [])
      · have hrest : rest = [] := by
          rcases hffl.2 with h | h
          · omega
          · exact h
        subst hrest
        rw [if_pos hffl]
        rw [show countElig ([] : List PointRec) = 0 from rfl,
          show stmtSizesAux N 0 [] = [] from rfl]
        refine ⟨by simp, ?_⟩
        rw [show cnt + (0 + 0) + N - 1 = (cnt - 1) + N from by omega,
          div_one_of N ((cnt - 1) + N) (by omega) (by omega)]
        rfl
      · rw [if_neg hffl]
        push_neg at hffl
        by_cases hrest : rest = []
        · have hc0 : cnt = 0 := by
            by_contra hc
            exact (hffl (by omega)).2 hrest
          subst hrest
          subst hc0
          obtain ⟨h1, h2⟩ := ih 0 (by omega) (fun _ => rfl)
          exact ⟨by simpa using h1, by simpa using h2⟩
        · obtain ⟨h1, h2⟩ := ih cnt hcnt (fun h => absurd h hrest)
          exact ⟨by simpa using h1, by simpa using h2⟩

lemma stmtSizesAux_last (N : ℕ) (hN : 1 ≤ N) :
    ∀ (pts : List PointRec) (cnt : ℕ), cnt < N → (pts = [] → cnt = 0) →
      (stmtSizesAux N cnt pts).getLast? =
        (if cnt + countElig pts = 0 then none
         else some (if (cnt + countElig pts) % N = 0 then N
                    else (cnt + countElig pts) % N)) := by
  intro pts
  induction pts with
  | nil =>
    intro cnt _ h0
    rw [h0 rfl]
    rfl
  | cons p rest ih =>
    intro cnt hcnt h0
    have hce : countElig (p :: rest) =
        countElig rest + (if bestPower p ≠ DB_MIN_VAL then 1 else 0) := by
      rw [countElig, List.countP_cons, ← countElig]
      by_cases hp : bestPower p ≠ DB_MIN_VAL <;> simp [hp]
    rw [stmtSizesAux]
    by_cases hp : bestPower p ≠ DB_MIN_VAL
    · rw [if_pos hp]
      rw [hce, if_pos hp]
      by_cases hffl : cnt + 1 = N ∨ rest = []
      · rw [if_pos hffl]
        by_cases hrest : rest = []
        · subst hrest
          rw [show countElig ([] : List PointRec) = 0 from rfl,
            show stmtSizesAux N 0 [] = [] from rfl,
            List.getLast?_singleton]
          rw [if_neg (by omega : ¬ cnt + (0 + 1) = 0)]
          by_cases hNe : cnt + 1 = N
          · rw [if_pos (by
              rw [show cnt + (0 + 1) = N from by omega]
              exact Nat.mod_self N)]
            exact congrArg some (by omega)
          · rw [if_neg (by
              rw [show cnt + (0 + 1) = cnt + 1 from by omega,
                Nat.mod_eq_of_lt (by omega)]
              omega)]
            exact congrArg some (by
              rw [show cnt + (0 + 1) = cnt + 1 from by omega,
                Nat.mod_eq_of_lt (by omega)])
        · have hN1 : cnt + 1 = N := by tauto
          by_cases hcr : countElig rest = 0
          · have hempty : stmtSizesAux N 0 rest = [] := by
              have hsum := (stmtSizesAux_sum_len N hN rest 0 (by omega)
                (fun _ => rfl)).1
              rw [hcr] at hsum
              have hpos := stmtSizesAux_pos N rest 0
              cases hres : stmtSizesAux N 0 rest with
              | nil => rfl
              | cons a l =>
                rw [hres] at hsum hpos
                have ha := hpos a (by simp)
                simp [List.sum_cons] at hsum
                omega
            rw [hempty, hcr, List.getLast?_singleton]
            rw [if_neg (by omega : ¬ cnt + (0 + 1) = 0)]
            rw [if_pos (by
              rw [show cnt + (0 + 1) = N from by omega]
              exact Nat.mod_self N)]
            exact congrArg some (by omega)
          · have hne : stmtSizesAux N 0 rest ≠ [] := by
              intro hres
              have hsum := (stmtSizesAux_sum_len N hN rest 0 (by omega)
                (fun _ => rfl)).1
              rw [hres] at hsum
              simp at hsum
              omega
            obtain ⟨a, l, hres⟩ := List.exists_cons_of_ne_nil hne
            rw [hres, List.getLast?_cons_cons, ← hres]
            rw [ih 0 (by omega) (fun h => absurd h hrest)]
            rw [if_neg (by omega : ¬ 0 + countElig rest = 0)]
            rw [if_neg (by omega : ¬ cnt + (countElig rest + 1) = 0)]
            rw [show cnt + (countElig rest + 1) =
              0 + countElig rest + N from by omega,
              Nat.add_mod_right]
      · rw [if_neg hffl]
        push_neg at hffl
        rw [ih (cnt + 1) (by omega) (fun h => absurd h hffl.2)]
        rw [show cnt + 1 + countElig rest =
          cnt + (countElig rest + 1) from by omega]
    · rw [if_neg hp]
      rw [hce, if_neg hp]
      by_cases hffl : 0 < cnt ∧ (cnt = N ∨ rest = [])
      · have hrest : rest = [] := by
          rcases hffl.2 with h | h
          · omega
          · exact h
        subst hrest
        rw [if_pos hffl]
        rw [show countElig ([] : List PointRec) = 0 from rfl,
          show stmtSizesAux N 0 [] = [] from rfl,
          List.getLast?_singleton]
        rw [if_neg (by omega : ¬ cnt + (0 + 0) = 0)]
        rw [if_neg (by
          rw [show cnt + (0 + 0) = cnt from by omega,
            Nat.mod_eq_of_lt hcnt]
          omega)]
        exact congrArg some (by
          rw [show cnt + (0 + 0) = cnt from by omega,
            Nat.mod_eq_of_lt hcnt])
      · rw [if_neg hffl]
        push_neg at hffl
        by_cases hrest : rest = []
        · have hc0 : cnt = 0 := by
            by_contra hc
            exact (hffl (by omega)).2 hrest
          subst hrest
          subst hc0
          rw [ih 0 (by omega) (fun _ => rfl)]
          rfl
        · rw [ih cnt hcnt (fun h => absurd h hrest)]
          simp

lemma scanCols_events (csv2db : Bool) (packet : ℕ) (tbl : String)
    (y res : ℤ) :
    ∀ (pts : List PointRec) (x : ℤ) (cnt : ℕ) (sql : String) (e : Ev),
      e ∈ scanCols csv2db packet tbl y res x cnt sql pts →
        (csv2db = true ∧ ∃ w, e = Ev.writeLine w) ∨
          (csv2db = false ∧ ∃ n w, e = Ev.exec n w) := by
  intro pts
  induction pts with
  | nil =>
    intro x cnt sql e he
    simp [scanCols] at he
  | cons p rest ih =>
    intro x cnt sql e he
    rw [scanCols] at he
    cases csv2db with
    | true =>
      by_cases hp : bestPower p ≠ DB_MIN_VAL
      · rw [if_pos hp, if_pos rfl] at he
        rcases List.mem_cons.mp he with rfl | he2
        · exact Or.inl ⟨rfl, _, rfl⟩
        · exact ih _ _ _ _ he2
      · rw [if_neg hp, if_neg (by simp)] at he
        exact ih _ _ _ _ he
    | false =>
      by_cases hp : bestPower p ≠ DB_MIN_VAL
      · rw [if_pos hp, if_neg Bool.false_ne_true] at he
        by_cases hf : cnt + 1 = packet ∨ rest = []
        · rw [if_pos hf] at he
          rcases List.mem_cons.mp he with rfl | he2
          · exact Or.inr ⟨rfl, _, _, rfl⟩
          · exact ih _ _ _ _ he2
        · rw [if_neg hf] at he
          exact ih _ _ _ _ he
      · rw [if_neg hp] at he
        by_cases hf : 0 < cnt ∧ (cnt = packet ∨ rest = [])
        · rw [if_pos ⟨Bool.false_ne_true, hf.1, hf.2⟩] at he
          rcases List.mem_cons.mp he with rfl | he2
          · exact Or.inr ⟨rfl, _, _, rfl⟩
          · exact ih _ _ _ _ he2
        · rw [if_neg (by
            intro hc
            exact hf ⟨hc.2.1, hc.2.2⟩)] at he
          exact ih _ _ _ _ he

lemma scanRows_events (csv2db : Bool) (packet : ℕ) (tbl : String)
    (xS res : ℤ) :
    ∀ (rows : List (List PointRec)) (y : ℤ) (e : Ev),
      e ∈ scanRows csv2db packet tbl xS res y rows →
        (csv2db = true ∧ ∃ w, e = Ev.writeLine w) ∨
          (csv2db = false ∧ ∃ n w, e = Ev.exec n w) := by
  intro rows
  induction rows with
  | nil =>
    intro y e he
    simp [scanRows] at he
  | cons r rest ih =>
    intro y e he
    rw [scanRows] at he
    rcases List.mem_append.mp he with h | h
    · exact scanCols_events csv2db packet tbl y res r _ _ _ e h
    · exact ih _ e h

lemma scanRows_all_benign (csv2db : Bool) (packet : ℕ) (tbl : String)
    (xS res : ℤ) (rows : List (List PointRec)) (y : ℤ) :
    (scanRows csv2db packet tbl xS res y rows).all benign = true := by
  rw [List.all_eq_true]
  intro e he
  rcases scanRows_events csv2db packet tbl xS res rows y e he with
    ⟨_, w, rfl⟩ | ⟨_, n, w, rfl⟩ <;> rfl

lemma countElig_cons (p : PointRec) (rest : List PointRec) :
    countElig (p :: rest) =
      countElig rest + (if bestPower p ≠ DB_MIN_VAL then 1 else 0) := by
  rw [countElig, List.countP_cons, ← countElig]
  by_cases hp : bestPower p ≠ DB_MIN_VAL <;> simp [hp]

lemma stmtSizesAux_one :
    ∀ pts : List PointRec, stmtSizesAux 1 0 pts =
      List.replicate (countElig pts) 1 := by
  intro pts
  induction pts with
  | nil => rfl
  | cons p rest ih =>
    rw [stmtSizesAux]
    by_cases hp : bestPower p ≠ DB_MIN_VAL
    · rw [if_pos hp, if_pos (Or.inl rfl), ih, countElig_cons, if_pos hp,
        List.replicate_succ]
    · rw [if_neg hp, if_neg (by simp), ih, countElig_cons, if_neg hp,
        Nat.add_zero]

/-! ### Claims about output selection and persistence -/

/-- A sample point whose strongest power is 5 dBm. -/
def ptEx : PointRec := ⟨[("A", 1, 5, "m")], 0⟩

/-- A sample point whose strongest power is -50 dBm (usable but weak). -/
def ptLow : PointRec := ⟨[("A", 1, -50, "m")], -1⟩

/-- C3 counterexample: a point with best power -50 dBm and receive
threshold -40 dBm is written as no-data in the output raster, yet the
persistence pass (whose null-skip filter at lines 356-357 only tests
`arr_power[0] != DB_MIN_VAL`) still writes its record: the claim that such
a point appears in neither output is false. -/
theorem c3_counterexample :
    rasterCell .rssMax (-50) (-49) 0 0 (-40) = none ∧
      writtenLines (fill_database "csv" 20 false false 0 0 1 "t" [[ptLow]]) =
        [lineOf 0 0 1 ptLow] ∧
      [lineOf 0 0 1 ptLow] ≠ ([] : List String) := by
  refine ⟨by rfl, by rfl, by simp⟩

/-- C3 (amended): a point whose best power is at or below the receive
threshold is written as no-data in the output raster under every output
mode; but the persisted output excludes a point exactly when its best
power equals the sentinel `DB_MIN_VAL` (the `SKIPNULL` filter), not when
it is merely at or below the threshold — the two exclusions coincide only
when the threshold is left at its default (the sentinel itself) and the
best power is not below the sentinel. -/
theorem c3_threshold_amended (mode : GenMode) (best sumdB : ℚ) (bestIx : ℤ)
    (lteVal thresh : ℚ) (h : best ≤ thresh) (pt : PointRec) (dbPerf2 : ℤ)
    (ovr : Bool) (xS yS res : ℤ) (tbl : String) :
    rasterCell mode best sumdB bestIx lteVal thresh = none ∧
      writtenLines (fill_database "csv" dbPerf2 ovr false xS yS res tbl [[pt]]) =
        (if bestPower pt = DB_MIN_VAL then [] else [lineOf xS yS res pt]) ∧
      (thresh = DB_MIN_VAL → DB_MIN_VAL ≤ bestPower pt →
        bestPower pt ≤ thresh →
        writtenLines (fill_database "csv" dbPerf2 ovr false xS yS res tbl [[pt]]) =
          []) := by
  have hforall : writtenLines
      (fill_database "csv" dbPerf2 ovr false xS yS res tbl [[pt]]) =
      (if bestPower pt = DB_MIN_VAL then [] else [lineOf xS yS res pt]) := by
    by_cases hb : bestPower pt = DB_MIN_VAL
    · rw [if_pos hb]
      simp [fill_database, scanRows, scanCols, writtenLines, hb]
    · rw [if_neg hb]
      simp [fill_database, scanRows, scanCols, writtenLines, hb]
  refine ⟨?_, hforall, ?_⟩
  · simp only [rasterCell]
    rw [if_pos h]
  · intro ht hge hle
    have hb : bestPower pt = DB_MIN_VAL := le_antisymm (ht ▸ hle) hge
    rw [hforall, if_pos hb]

/-- Witness for `c3_threshold_amended`: mode `rss-sum`, a -50 dBm point
against a -40 dBm threshold. -/
theorem c3_threshold_amended_witness :
    rasterCell .rssSum (-50) (-49) 0 0 (-40) = none ∧
      writtenLines (fill_database "csv" 20 true false 0 0 1 "t" [[ptLow]]) =
        (if bestPower ptLow = DB_MIN_VAL then [] else [lineOf 0 0 1 ptLow]) := by
  have h := c3_threshold_amended .rssSum (-50) (-49) 0 0 (-40) (by norm_num)
    ptLow 20 true 0 0 1 "t"
  exact ⟨h.1, h.2.1⟩

/-- C4 counterexample: with packet size 2 and two eligible points lying in
two different raster rows, the code issues two single-row INSERT
statements, not the claimed `⌈R/N⌉ = ⌈2/2⌉ = 1`: `SQLrowcnt` restarts at
every raster row (line 348) and the batch is flushed at the end of each
raster row (`col+1 == ncols`, line 396), not only on input exhaustion. -/
theorem c4_counterexample :
    execSizes (fill_database "pg" 2 false false 0 0 1 "t" [[ptEx], [ptEx]]) =
      [1, 1] ∧
    (execSizes (fill_database "pg" 2 false false 0 0 1 "t"
        [[ptEx], [ptEx]])).length ≠ (2 + 2 - 1) / 2 := by
  refine ⟨by rfl, by decide⟩

/-- C4 (amended): under the batched multi-row insert strategy with packet
size `N` (1-98), batches are flushed on reaching `N` buffered rows or at
the end of each raster row (the buffer restarts per raster row), so a row
with `R_r` eligible points contributes exactly `⌈R_r/N⌉` statements whose
last carries `R_r mod N` rows (`N` when `N` divides `R_r`); the whole run
issues the concatenation of these per-row statement sequences. -/
theorem c4_batched_insert_amended (N : ℕ) (hN1 : 1 ≤ N) (hN2 : N ≤ 98)
    (ovr fe : Bool) (xS yS res : ℤ) (tbl : String)
    (rows : List (List PointRec)) :
    execSizes (fill_database "pg" (N : ℤ) ovr fe xS yS res tbl rows) =
        (rows.map fun r => stmtSizesAux N 0 r).flatten ∧
      ∀ r ∈ rows,
        (stmtSizesAux N 0 r).length = (countElig r + N - 1) / N ∧
          (stmtSizesAux N 0 r).sum = countElig r ∧
          (stmtSizesAux N 0 r).getLast? =
            (if countElig r = 0 then none
             else some (if countElig r % N = 0 then N
                        else countElig r % N)) := by
  constructor
  · have hc : (0 : ℤ) ≤ (N : ℤ) ∧ (N : ℤ) < 99 := by
      constructor
      · exact Int.natCast_nonneg N
      · have : (N : ℤ) ≤ 98 := by exact_mod_cast hN2
        omega
    have hdrv : fill_database "pg" (N : ℤ) ovr fe xS yS res tbl rows =
        Ev.beginTx :: (scanRows false ((N : ℤ)).toNat tbl xS res yS rows ++
          [Ev.commitTx]) := by
      simp [fill_database, hc.1, hc.2]
    rw [hdrv]
    have hskip : execSizes (Ev.beginTx ::
        (scanRows false ((N : ℤ)).toNat tbl xS res yS rows ++
          [Ev.commitTx])) =
        execSizes (scanRows false ((N : ℤ)).toNat tbl xS res yS rows) := by
      simp [execSizes, List.filterMap_append]
    rw [hskip, show ((N : ℤ)).toNat = N from by simp, execSizes_scanRows]
  · intro r hr
    obtain ⟨hsum, hlen⟩ :=
      stmtSizesAux_sum_len N hN1 r 0 (by omega) (fun _ => rfl)
    refine ⟨by simpa using hlen, by simpa using hsum, ?_⟩
    have hl := stmtSizesAux_last N hN1 r 0 (by omega) (fun _ => rfl)
    simpa using hl

/-- Witness for `c4_batched_insert_amended` at `N = 2` on a 2x1 grid. -/
theorem c4_batched_insert_amended_witness :
    execSizes (fill_database "pg" ((2 : ℕ) : ℤ) false false 0 0 1 "t"
        [[ptEx], [ptEx]]) =
      ([[ptEx], [ptEx]].map fun r => stmtSizesAux 2 0 r).flatten ∧
      (stmtSizesAux 2 0 [ptEx]).sum = countElig [ptEx] := by
  have h := c4_batched_insert_amended 2 (by norm_num) (by norm_num) false
    false 0 0 1 "t" [[ptEx], [ptEx]]
  exact ⟨h.1, (h.2 [ptEx] (by simp)).2.1⟩

/-- C5 counterexample: driver `odbc` with `dbperf = 99` (staged bulk load)
is a configuration the code cannot serve, yet the run first creates the
table, opens the staging file and writes every eligible record to it, and
only then hits the fatal error of line 444 — the configuration error is
not detected before I/O. -/
theorem c5_counterexample :
    mainPersist "odbc" 99 1 1 false false false 0 0 1 "t" [[ptEx]] =
      [Ev.createTable 8, Ev.mkTemp, Ev.writeLine (lineOf 0 0 1 ptEx),
        Ev.fatal (unsupportedMsg "odbc")] := by
  rfl

/-- C5 (amended): for a real database driver other than `mysql` and `pg`,
selecting `dbperf = 99` aborts with the unsupported-driver error only
after the table has been created and the staging file has been completely
written; the run does abort before the bulk-load statement (and before
any insert) is executed. -/
theorem c5_unsupported_bulk_amended (drv : String)
    (h1 : drv ≠ "mysql") (h2 : drv ≠ "pg") (h3 : drv ≠ "dbf")
    (h4 : drv ≠ "sqlite") (h5 : drv ≠ "csv") (h6 : drv ≠ "none")
    (K M : ℕ) (ovr fe : Bool) (xS yS res : ℤ) (tbl : String)
    (rows : List (List PointRec)) :
    mainPersist drv 99 K M false ovr fe xS yS res tbl rows =
      Ev.createTable (4 * (if M < K then M else K) + 4) :: Ev.mkTemp ::
        (scanRows true 1 tbl xS res yS rows ++
          [Ev.fatal (unsupportedMsg drv)]) ∧
    (∀ sql, Ev.bulkLoad sql ∉
      mainPersist drv 99 K M false ovr fe xS yS res tbl rows) ∧
    (∀ n sql, Ev.exec n sql ∉
      mainPersist drv 99 K M false ovr fe xS yS res tbl rows) := by
  have hmain : mainPersist drv 99 K M false ovr fe xS yS res tbl rows =
      Ev.createTable (4 * (if M < K then M else K) + 4) :: Ev.mkTemp ::
        (scanRows true 1 tbl xS res yS rows ++
          [Ev.fatal (unsupportedMsg drv)]) := by
    simp [mainPersist, create_table, hasFatal, fill_database,
      h1, h2, h3, h4, h5, h6]
  refine ⟨hmain, ?_, ?_⟩
  · intro sql hmem
    rw [hmain] at hmem
    simp only [List.mem_cons, List.mem_append, List.mem_singleton] at hmem
    rcases hmem with h | h | h | h | h
    · cases h
    · cases h
    · rcases scanRows_events true 1 tbl xS res rows yS (Ev.bulkLoad sql) h with
        ⟨_, w, hw⟩ | ⟨hf, _, _, hw⟩
      · cases hw
      · cases hf
    · cases h
    · exact absurd h (List.not_mem_nil _)
  · intro n sql hmem
    rw [hmain] at hmem
    simp only [List.mem_cons, List.mem_append, List.mem_singleton] at hmem
    rcases hmem with h | h | h | h | h
    · cases h
    · cases h
    · rcases scanRows_events true 1 tbl xS res rows yS (Ev.exec n sql) h with
        ⟨_, w, hw⟩ | ⟨hf, _, _, hw⟩
      · cases hw
      · cases hf
    · cases h
    · exact absurd h (List.not_mem_nil _)

/-- Witness for `c5_unsupported_bulk_amended` at driver `odbc`. -/
theorem c5_unsupported_bulk_amended_witness :
    mainPersist "odbc" 99 1 1 false false false 0 0 1 "t" [[ptEx]] =
      Ev.createTable (4 * 1 + 4) :: Ev.mkTemp ::
        (scanRows true 1 "t" 0 1 0 [[ptEx]] ++
          [Ev.fatal (unsupportedMsg "odbc")]) := by
  have h := (c5_unsupported_bulk_amended "odbc" (by decide) (by decide)
    (by decide) (by decide) (by decide) (by decide) 1 1 false false 0 0 1
    "t" [[ptEx]]).1
  simpa using h

/-- C6: given the same finalized per-point inputs, the record lines the
staged bulk-load strategy writes to its staging file and the lines the
flat-file (`csv`) sink writes to the output file are identical, line for
line: both run the same `csv2db` scan over the same data (lines 371-387). -/
theorem c6_staged_flatfile_byte_identical (dbPerf2 : ℤ) (ovr ovr2 fe : Bool)
    (xS yS res : ℤ) (tbl : String) (rows : List (List PointRec)) :
    writtenLines (fill_database "mysql" 99 ovr fe xS yS res tbl rows) =
        writtenLines (fill_database "csv" dbPerf2 ovr2 false xS yS res tbl rows) ∧
      writtenLines (fill_database "pg" 99 ovr fe xS yS res tbl rows) =
        writtenLines (fill_database "csv" dbPerf2 ovr2 false xS yS res tbl rows) := by
  constructor <;> simp [fill_database, writtenLines, List.filterMap_append]

/-- C8: the persisted derived-quality scalar is `arr_EcNo`, computed for
every point as best power minus finalized aggregate power (line 945)
independently of the selected output mode and of the LTE adapter value;
the trailing field of each output record is exactly `,%.2f` of that
difference (lines 383-384); the LTE value reaches only the output raster
(where it does make a difference). -/
theorem c8_persisted_quality_is_ecno (mode mode2 : GenMode)
    (thresh thresh2 : ℚ) (pts : List OutPt) (x y res : ℤ)
    (cells : List (String × ℤ × ℚ × String)) (best sumdB : ℚ) :
    (mainOutputs mode thresh pts).2 = (mainOutputs mode2 thresh2 pts).2 ∧
      (mainOutputs mode thresh pts).2 = pts.map (fun q => q.1 - q.2.1) ∧
      lineOf x y res ⟨cells, best - sumdB⟩ =
        lineBody x y res cells ++ ("," ++ fmt2f (best - sumdB)) ∧
      rasterCell .lte 0 0 0 5 (-1) ≠ rasterCell .lte 0 0 0 7 (-1) := by
  refine ⟨rfl, rfl, rfl, by decide⟩

/-- Concatenating per-row runs of single-row inserts gives one run of
ones. -/
def totalElig (rows : List (List PointRec)) : ℕ := (rows.map countElig).sum

lemma flatten_replicate_ones (rows : List (List PointRec)) :
    ((rows.map fun r => List.replicate (countElig r) 1).flatten : List ℕ) =
      List.replicate (totalElig rows) 1 := by
  induction rows with
  | nil => rfl
  | cons r rest ih =>
    rw [List.map_cons, List.flatten_cons, ih,
      show totalElig (r :: rest) = countElig r + totalElig rest from by
        simp [totalElig],
      List.replicate_add]

/-- C9: for the `dbf` and `sqlite` drivers the performance parameter is
unconditionally overridden to 1 (line 283) — also when 99 (staged bulk
load) was requested — so the run is the plain transactional path with
one-row INSERT statements: no error, no staging file, no bulk load, no
multi-row statement ever occurs for these drivers. -/
theorem c9_dbf_sqlite_forced_rowwise (p : ℤ) (ovr fe : Bool)
    (xS yS res : ℤ) (tbl : String) (rows : List (List PointRec)) :
    fill_database "dbf" p ovr fe xS yS res tbl rows =
        fill_database "dbf" 1 ovr fe xS yS res tbl rows ∧
      fill_database "sqlite" p ovr fe xS yS res tbl rows =
        fill_database "sqlite" 1 ovr fe xS yS res tbl rows ∧
      fill_database "dbf" p ovr fe xS yS res tbl rows =
        Ev.beginTx :: (scanRows false 1 tbl xS res yS rows ++ [Ev.commitTx]) ∧
      execSizes (fill_database "dbf" p ovr fe xS yS res tbl rows) =
        List.replicate (totalElig rows) 1 ∧
      (fill_database "dbf" p ovr fe xS yS res tbl rows).all benign = true := by
  have hshape : fill_database "dbf" p ovr fe xS yS res tbl rows =
      Ev.beginTx :: (scanRows false 1 tbl xS res yS rows ++ [Ev.commitTx]) := by
    simp [fill_database]
  have hshape1 : fill_database "dbf" 1 ovr fe xS yS res tbl rows =
      Ev.beginTx :: (scanRows false 1 tbl xS res yS rows ++ [Ev.commitTx]) := by
    simp [fill_database]
  have hshapeS : fill_database "sqlite" p ovr fe xS yS res tbl rows =
      Ev.beginTx :: (scanRows false 1 tbl xS res yS rows ++ [Ev.commitTx]) := by
    simp [fill_database]
  have hshapeS1 : fill_database "sqlite" 1 ovr fe xS yS res tbl rows =
      Ev.beginTx :: (scanRows false 1 tbl xS res yS rows ++ [Ev.commitTx]) := by
    simp [fill_database]
  refine ⟨hshape.trans hshape1.symm, hshapeS.trans hshapeS1.symm, hshape,
    ?_, ?_⟩
  · rw [hshape]
    have hskip : execSizes (Ev.beginTx ::
        (scanRows false 1 tbl xS res yS rows ++ [Ev.commitTx])) =
        execSizes (scanRows false 1 tbl xS res yS rows) := by
      simp [execSizes, List.filterMap_append]
    rw [hskip, execSizes_scanRows]
    rw [show (fun r => stmtSizesAux 1 0 r) = fun r : List PointRec =>
      List.replicate (countElig r) 1 from funext fun r => stmtSizesAux_one r]
    exact flatten_replicate_ones rows
  · rw [hshape, List.all_cons, List.all_append]
    simp [benign, scanRows_all_benign]

/-- C10: when the requested top-K depth exceeds the number `M` of sources
in the cell input file, `cell_num` is silently clamped to `M`
(line 678) before table creation: the run is identical to one requested
with `K = M`, the created table has `4M + 4` columns (line 144), and no
error or warning event is produced anywhere in the persistence pass. -/
theorem c10_cellnum_silently_clamped (K M : ℕ) (hKM : M < K) (dbP : ℤ)
    (hdb0 : 0 ≤ dbP) (hdb : dbP < 99) (ovr fe : Bool) (xS yS res : ℤ)
    (tbl : String) (rows : List (List PointRec)) :
    mainPersist "pg" dbP K M false ovr fe xS yS res tbl rows =
        mainPersist "pg" dbP M M false ovr fe xS yS res tbl rows ∧
      Ev.createTable (4 * M + 4) ∈
        mainPersist "pg" dbP K M false ovr fe xS yS res tbl rows ∧
      (mainPersist "pg" dbP K M false ovr fe xS yS res tbl rows).all benign =
        true := by
  have hclamp : (if M < K then M else K) = M := if_pos hKM
  cases ovr with
  | false =>
    have hshape : mainPersist "pg" dbP K M false false fe xS yS res tbl rows =
        Ev.createTable (4 * M + 4) :: (Ev.beginTx ::
          (scanRows false dbP.toNat tbl xS res yS rows ++ [Ev.commitTx])) := by
      simp [mainPersist, create_table, hasFatal, fill_database, hKM,
        hdb0, hdb]
    have hshape2 : mainPersist "pg" dbP M M false false fe xS yS res tbl rows =
        Ev.createTable (4 * M + 4) :: (Ev.beginTx ::
          (scanRows false dbP.toNat tbl xS res yS rows ++ [Ev.commitTx])) := by
      simp [mainPersist, create_table, hasFatal, fill_database, hdb0, hdb]
    refine ⟨hshape.trans hshape2.symm, ?_, ?_⟩
    · rw [hshape]
      exact List.mem_cons_self _ _
    · rw [hshape, List.all_cons, List.all_cons, List.all_append]
      simp [benign, scanRows_all_benign]
  | true =>
    have hshape : mainPersist "pg" dbP K M false true fe xS yS res tbl rows =
        Ev.dropTable :: Ev.createTable (4 * M + 4) :: (Ev.beginTx ::
          (scanRows false dbP.toNat tbl xS res yS rows ++ [Ev.commitTx])) := by
      simp [mainPersist, create_table, hasFatal, fill_database, hKM,
        hdb0, hdb]
    have hshape2 : mainPersist "pg" dbP M M false true fe xS yS res tbl rows =
        Ev.dropTable :: Ev.createTable (4 * M + 4) :: (Ev.beginTx ::
          (scanRows false dbP.toNat tbl xS res yS rows ++ [Ev.commitTx])) := by
      simp [mainPersist, create_table, hasFatal, fill_database, hdb0, hdb]
    refine ⟨hshape.trans hshape2.symm, ?_, ?_⟩
    · rw [hshape]
      exact List.mem_cons_of_mem _ (List.mem_cons_self _ _)
    · rw [hshape, List.all_cons, List.all_cons, List.all_cons,
        List.all_append]
      simp [benign, scanRows_all_benign]

/-- Witness for `c10_cellnum_silently_clamped` at `K = 7`, `M = 3`. -/
theorem c10_cellnum_silently_clamped_witness :
    mainPersist "pg" 20 7 3 false false false 0 0 1 "t" [[ptEx]] =
        mainPersist "pg" 20 3 3 false false false 0 0 1 "t" [[ptEx]] ∧
      Ev.createTable (4 * 3 + 4) ∈
        mainPersist "pg" 20 7 3 false false false 0 0 1 "t" [[ptEx]] := by
  have h := c10_cellnum_silently_clamped 7 3 (by norm_num) 20 (by norm_num)
    (by norm_num) false false 0 0 1 "t" [[ptEx]]
  exact ⟨h.1, h.2.1⟩

end RMaxPower
